import Mathlib

/-!
# hn: concurrent fetch and render of Hacker News stories and comment trees

A shallow embedding of `main.go` (`run`, `top`, `comments`, `indent`,
`loadItem`) and theorems about it.

Modelling conventions.

* A Go `string` is a Lean `String`; `strings.Split`, `strings.Join` and
  `strings.ReplaceAll` are written out over the characters of the string.
* A Go `error` is a `GoError`: a leaf error coming from a library, or an
  `fmt.Errorf("<prefix>%w", err)` wrapper around another error.
* The remote item source, the HTML converter and `strconv.Atoi` are external:
  they are the fields of a `World`.
* A fan-out is a list of tasks, each task being the list of values its
  goroutine still has to send on the shared unbuffered channel.  A receive takes
  the next value of one of the tasks that are ready to send; which one is
  decided by a scheduler pick, so that quantifying over schedules quantifies
  over arrival orders.
* `comments` recurses through the remote source, so it carries fuel; `none`
  means that the call did not return within the fuel.
-/

namespace HN

/-! ## Strings -/

/-- The pieces of `strings.Split(s, sep)` for a one-character separator, over
the characters of `s`. There is always at least one piece. -/
def splitChars (sep : Char) : List Char → List (List Char)
  | [] => [[]]
  | c :: cs =>
    if c = sep then [] :: splitChars sep cs
    else
      match splitChars sep cs with
      | [] => [[c]]
      | l :: ls => (c :: l) :: ls

/-- Go `strings.Split(s, sep)` with a separator of one character. -/
def Split (s : String) (sep : Char) : List String :=
  (splitChars sep s.data).map String.mk

/-- Go `strings.Join(elems, sep)`. -/
def Join : List String → String → String
  | [], _ => ""
  | [l], _ => l
  | l :: l' :: ls, sep => l ++ sep ++ Join (l' :: ls) sep

/-- The scan of `strings.ReplaceAll`: `skip` counts the characters of a match
that are still to be passed over. -/
def replaceChars (old new : List Char) : Nat → List Char → List Char
  | _, [] => []
  | skip + 1, _ :: cs => replaceChars old new skip cs
  | 0, c :: cs =>
    if old.isPrefixOf (c :: cs) then new ++ replaceChars old new (old.length - 1) cs
    else c :: replaceChars old new 0 cs

/-- Go `strings.ReplaceAll(s, old, new)` for a non-empty `old`: the
non-overlapping occurrences of `old`, from the left, are replaced by `new`. -/
def ReplaceAll (s old new : String) : String :=
  ⟨replaceChars old.data new.data 0 s.data⟩

/-- The `main.go` function `indent`: indents each line of the given string and
returns it. -/
def indent (s : String) : String :=
  Join ((Split s '\n').map (fun l => "\t" ++ l)) "\n"

/-- The `%v` verb of `fmt` applied to an `int`. -/
def fmtInt (n : Int) : String := toString n

/-! ## Errors, items and the outside world -/

/-- A Go `error` value: an error produced outside `main.go`, or the result of
`fmt.Errorf("<pre>%w", inner)`. -/
inductive GoError where
  | leaf (msg : String)
  | wrap (pre : String) (inner : GoError)
  deriving DecidableEq, Repr

/-- The `Error()` string of an error. -/
def GoError.Error : GoError → String
  | .leaf msg => msg
  | .wrap pre inner => pre ++ inner.Error

/-- The innermost error of a chain of wrappers (repeated `errors.Unwrap`). -/
def GoError.cause : GoError → GoError
  | .leaf msg => .leaf msg
  | .wrap _ inner => inner.cause

/-- The `main.go` type `item`. The field `Type` is spelled `Typ`. -/
structure item where
  Id : Int := 0
  Title : String := ""
  Score : Int := 0
  By : String := ""
  Url : String := ""
  Descendants : Int := 0
  Typ : String := ""
  Kids : List Int := []
  Text : String := ""
  deriving DecidableEq, Repr

/-- A Go slice: its backing array from the first element of the slice to the
capacity, and its length. -/
structure GoSlice (α : Type) where
  arr : List α
  len : Nat
  deriving DecidableEq, Repr

/-- Capacity of a slice, `cap(s)`. -/
def GoSlice.cap {α : Type} (s : GoSlice α) : Nat := s.arr.length

/-- The elements `s[0], ..., s[len(s)-1]`. -/
def GoSlice.elems {α : Type} (s : GoSlice α) : List α := s.arr.take s.len

/-- The slice expression `s[:hi]`: it panics when `hi` exceeds the capacity. -/
def GoSlice.sliceTo {α : Type} (s : GoSlice α) (hi : Nat) : Except String (GoSlice α) :=
  if hi ≤ s.cap then .ok { s with len := hi }
  else .error ("runtime error: slice bounds out of range [:" ++ toString hi ++ "] with capacity "
    ++ toString s.cap)

/-- What is outside `main.go`: the remote source, the converter and `strconv`. -/
structure World where
  /-- Outcome of `GET /v0/topstories.json` decoded into `stories`. -/
  topstories : Except GoError (GoSlice Int)
  /-- Outcome of `GET /v0/item/<id>.json` decoded into an `item`. -/
  fetchItem : Int → Except GoError item
  /-- The method `converter.ConvertString`. -/
  ConvertString : String → Except GoError String
  /-- The function `strconv.Atoi`. -/
  Atoi : String → Except GoError Int

/-- The `main.go` function `loadItem`: loads the given item id. On failure the
callers never read the item, so only the error is kept. -/
def loadItem (w : World) (id : Int) : Except GoError item :=
  match w.fetchItem id with
  | .error err => .error (.wrap "fetch: " err)
  | .ok i => .ok i

/-! ## Goroutines and the unbuffered result channel -/

/-- Number of tasks that are ready to send. -/
def readyCount {ρ : Type} : List (List ρ) → Nat
  | [] => 0
  | [] :: ts => readyCount ts
  | (_ :: _) :: ts => readyCount ts + 1

/-- Takes the next value of the `k`-th task that is ready to send. -/
def takeReady {ρ : Type} : Nat → List (List ρ) → Option (ρ × List (List ρ))
  | _, [] => none
  | k, [] :: ts =>
    match takeReady k ts with
    | none => none
    | some (r, ts') => some (r, [] :: ts')
  | 0, (m :: q) :: ts => some (m, q :: ts)
  | k + 1, (m :: q) :: ts =>
    match takeReady k ts with
    | none => none
    | some (r, ts') => some (r, (m :: q) :: ts')

/-- One receive `<-ch`: among the tasks that are ready to send, the pick of the
scheduler chooses the sender. `none` when nobody will ever send. -/
def recv {ρ : Type} (pick : Nat) (tasks : List (List ρ)) : Option (ρ × List (List ρ)) :=
  if readyCount tasks = 0 then none else takeReady (pick % readyCount tasks) tasks

/-- A schedule: for the call at a given path (the positions of the tasks that
enclose it, outermost first) and the number of the receive, the pick. -/
abbrev Sched := List Nat → Nat → Nat

/-- The schedule seen by the `i`-th task of a fan-out. -/
def Sched.child (sched : Sched) (i : Nat) : Sched := fun path => sched (i :: path)

/-- Starts one task per id, the `i`-th with its position; `none` when one of the
tasks has no behaviour within the fuel. -/
def launch {ρ : Type} (task : Nat → Int → Option (List ρ)) :
    Nat → List Int → Option (List (List ρ))
  | _, [] => some []
  | i, id :: ids =>
    match task i id, launch task (i + 1) ids with
    | some t, some ts => some (t :: ts)
    | _, _ => none

/-- How a function that returns leaves its fan-out: the goroutines it started,
the results it received and the goroutines that stay blocked on their send. -/
structure FanIn where
  launched : Nat := 0
  received : Nat := 0
  blocked : Nat := 0
  deriving DecidableEq, Repr

/-! ## `comments` -/

/-- The local type `result` of `comments`. -/
structure result where
  s : String := ""
  err : Option GoError := none
  idx : Nat := 0
  deriving DecidableEq, Repr

/-- The sends of the goroutine that `comments` starts for the child `lid` at
position `li`, given what `comments(ctx, lid)` returned. -/
def commentsTask (li : Nat) (lid : Int) (r : String × Option GoError) : List result :=
  match r.2 with
  | some err => [{ err := some (.wrap ("item " ++ fmtInt lid ++ ": ") err) }]
  | none => [{ s := r.1, idx := li }]

/-- The receive loop of `comments`: `n` iterations are left, `step` results
have been received. Returns the error or `subs`, the number of results received
and the tasks as they are left. -/
def commentsLoop (pick : Nat → Nat) :
    Nat → Nat → List (List result) → List String →
      Option (Except GoError (List String) × Nat × List (List result))
  | 0, step, tasks, subs => some (.ok subs, step, tasks)
  | n + 1, step, tasks, subs =>
    match recv (pick step) tasks with
    | none => none
    | some (r, tasks') =>
      match r.err with
      | some err => some (.error (.wrap "load sub comment: " err), step + 1, tasks')
      | none => commentsLoop pick n (step + 1) tasks' (subs.set r.idx r.s)

/-- A returned call of `comments`: the pair it returns and its fan-out. -/
structure CommentsCall where
  ret : String × Option GoError
  fan : FanIn := {}
  deriving DecidableEq, Repr

/-- The `main.go` function `comments` with its fan-out made visible: loads the
comments for the given id, formats and returns them. -/
def commentsCall (w : World) : Nat → Sched → Int → Option CommentsCall
  | 0, _, _ => none
  | fuel + 1, sched, id =>
    match loadItem w id with
    | .error err => some { ret := ("", some (.wrap "fetch story: " err)) }
    | .ok s =>
      match w.ConvertString (ReplaceAll s.Text "<p>" "\n\n") with
      | .error err => some { ret := ("", some (.wrap "parse comment: " err)) }
      | .ok t =>
        let out := "\n>>>>- by " ++ s.By ++ " (\n" ++ t
        match launch (fun li lid =>
            (commentsCall w fuel (sched.child li) lid).map
              (fun c => commentsTask li lid c.ret)) 0 s.Kids with
        | none => none
        | some tasks =>
          match commentsLoop (sched []) s.Kids.length 0 tasks
              (List.replicate s.Kids.length "") with
          | none => none
          | some (.error err, received, tasks') =>
            some { ret := ("", some err),
                   fan := ⟨s.Kids.length, received, readyCount tasks'⟩ }
          | some (.ok subs, received, tasks') =>
            some { ret := (subs.foldl (fun out ss => out ++ "\n" ++ indent ss) out ++ "\n)",
                          none),
                   fan := ⟨s.Kids.length, received, readyCount tasks'⟩ }

/-- The `main.go` function `comments`: the pair `(string, error)` it returns, or
`none` when the fuel does not suffice. -/
def comments (w : World) (fuel : Nat) (sched : Sched) (id : Int) :
    Option (String × Option GoError) :=
  (commentsCall w fuel sched id).map (fun c => c.ret)

/-! ## `top` -/

/-- How a function of the program ends: it returns, it panics, or it waits
for ever on a channel. -/
inductive Run (α : Type) where
  | ret (a : α)
  | panic (msg : String)
  | hang
  deriving DecidableEq, Repr

/-- The local type `result` of `top`. -/
structure topResult where
  story : item := {}
  err : Option GoError := none
  idx : Nat := 0
  deriving DecidableEq, Repr

/-- The sends of the goroutine that `top` starts for the story `lid` at
position `lidx`. -/
def topTask (w : World) (lidx : Nat) (lid : Int) : List topResult :=
  match loadItem w lid with
  | .error err => [{ err := some (.wrap ("fetch story " ++ fmtInt lid ++ ": ") err) }]
  | .ok s => [{ story := s, idx := lidx }]

/-- The goroutines of `top`, one per story, the first at position `i`. -/
def topTasks (w : World) : Nat → List Int → List (List topResult)
  | _, [] => []
  | i, id :: ids => topTask w i id :: topTasks w (i + 1) ids

/-- The receive loop of `top`. -/
def topLoop (pick : Nat → Nat) :
    Nat → Nat → List (List topResult) → List item →
      Option (List item × Nat × List (List topResult))
  | 0, step, tasks, items => some (items, step, tasks)
  | n + 1, step, tasks, items =>
    match recv (pick step) tasks with
    | none => none
    | some (s, tasks') => topLoop pick n (step + 1) tasks' (items.set s.idx s.story)

/-- One entry of the listing, as `top` prints it. -/
def topEntry (idx : Nat) (i : item) : String :=
  fmtInt (idx + 1) ++ ".  " ++ i.Title ++ "\n"
    ++ fmtInt i.Score ++ "pts\tby " ++ i.By ++ "\n\t\t"
    ++ fmtInt i.Descendants ++ " comments: exec://hn/comments/" ++ fmtInt i.Id ++ "\n\t\t"
    ++ i.Url ++ "\n"

/-- The print loop of `top` over `items`, the first at index `idx`. -/
def topPrint : Nat → List item → String
  | _, [] => ""
  | idx, i :: is => topEntry idx i ++ topPrint (idx + 1) is

/-- A returned call of `top`. -/
structure TopCall where
  err : Option GoError := none
  items : List item := []
  stdout : String := ""
  fan : FanIn := {}
  deriving DecidableEq, Repr

/-- The `main.go` function `top`: loads and prints the top 25 HN stories. -/
def top (w : World) (sched : Sched) : Run TopCall :=
  match w.topstories with
  | .error err => .ret { err := some (.wrap "fetch top stories: " err) }
  | .ok stories =>
    match stories.sliceTo 25 with
    | .error msg => .panic msg
    | .ok stories =>
      let ids := stories.elems
      match topLoop (sched []) ids.length 0 (topTasks w 0 ids)
          (List.replicate ids.length {}) with
      | none => .hang
      | some (items, received, tasks') =>
        .ret { err := none, items := items, stdout := topPrint 0 items,
               fan := ⟨ids.length, received, readyCount tasks'⟩ }

/-! ## `run` -/

/-- A value sent on `errchan`, with the write to the map `ss` that its
goroutine made before sending it. -/
structure runMsg where
  err : Option GoError := none
  write : Option (Int × String) := none
  deriving DecidableEq, Repr

/-- The sends of the goroutine that `run` starts for the comment `lk`, given
what `comments(ctx, lk)` returned: after the error there is no `return`. -/
def runTask (lk : Int) (r : String × Option GoError) : List runMsg :=
  (match r.2 with
   | some err => [{ err := some (.wrap ("loading comment " ++ fmtInt lk ++ ": ") err) }]
   | none => [])
  ++ [{ err := none, write := some (lk, r.1) }]

/-- The receive loop of `run`; `ss` is the map of the rendered comments. -/
def runLoop (pick : Nat → Nat) :
    Nat → Nat → List (List runMsg) → (Int → String) →
      Option (Except GoError (Int → String) × Nat × List (List runMsg))
  | 0, step, tasks, ss => some (.ok ss, step, tasks)
  | n + 1, step, tasks, ss =>
    match recv (pick step) tasks with
    | none => none
    | some (m, tasks') =>
      match m.err with
      | some err => some (.error (.wrap "subcomment: " err), step + 1, tasks')
      | none =>
        runLoop pick n (step + 1) tasks'
          (match m.write with
           | some (lk, c) => fun k => if k = lk then c else ss k
           | none => ss)

/-- The lines `fmt.Println(ss[k])` for the kids in order. -/
def runPrint (ss : Int → String) : List Int → String
  | [] => ""
  | k :: ks => ss k ++ "\n" ++ runPrint ss ks

/-- A returned call of `run`. -/
structure RunCall where
  err : Option GoError := none
  stdout : String := ""
  fan : FanIn := {}
  deriving DecidableEq, Repr

/-- The `main.go` function `run`, on the arguments `os.Args`. -/
def run (w : World) (fuel : Nat) (sched : Sched) (Args : List String) : Run RunCall :=
  if Args.length = 1 then
    match top w sched with
    | .panic msg => .panic msg
    | .hang => .hang
    | .ret t =>
      match t.err with
      | some err => .ret { err := some (.wrap "load top: " err), stdout := t.stdout, fan := t.fan }
      | none => .ret { stdout := t.stdout, fan := t.fan }
  else
    match Args.get? 1 with
    | none => .panic ("runtime error: index out of range [1] with length "
      ++ toString Args.length)
    | some a =>
      if a = "comments" then
        let args := Args.drop 2
        match args with
        | [arg] =>
          match w.Atoi arg with
          | .error err => .ret { err := some (.wrap "comments: expected numeric id argument: " err) }
          | .ok id =>
            match loadItem w id with
            | .error err => .ret { err := some (.wrap "loading story: " err) }
            | .ok s =>
              let head := s.Title ++ " (" ++ fmtInt s.Score ++ "pts, " ++ fmtInt s.Descendants
                ++ "cms)\n\tby " ++ s.By ++ "\n--------------------"
              match launch (fun li lk =>
                  (comments w fuel (sched.child li) lk).map (runTask lk)) 0 s.Kids with
              | none => .hang
              | some tasks =>
                match runLoop (sched []) s.Kids.length 0 tasks (fun _ => "") with
                | none => .hang
                | some (.error err, received, tasks') =>
                  .ret { err := some err, stdout := head,
                         fan := ⟨s.Kids.length, received, readyCount tasks'⟩ }
                | some (.ok ss, received, tasks') =>
                  .ret { stdout := head ++ runPrint ss s.Kids,
                         fan := ⟨s.Kids.length, received, readyCount tasks'⟩ }
        | _ =>
          .ret { err := some (.leaf ("comments: expected exactly 1 arg, got "
            ++ fmtInt args.length)) }
      else .ret {}

/-! ## The tree under an id -/

/-- The traversal that `comments` makes from `id` has depth at most `n`: an
item that does not load or does not convert is not expanded. -/
def fits (w : World) : Nat → Int → Bool
  | 0, _ => false
  | n + 1, id =>
    match w.fetchItem id with
    | .error _ => true
    | .ok s =>
      match w.ConvertString (ReplaceAll s.Text "<p>" "\n\n") with
      | .error _ => true
      | .ok _ => s.Kids.all (fits w n)

/-- The tree under `id` has depth at most `n` and each of its items loads and
converts. -/
def allOk (w : World) : Nat → Int → Bool
  | 0, _ => false
  | n + 1, id =>
    match w.fetchItem id with
    | .error _ => false
    | .ok s =>
      match w.ConvertString (ReplaceAll s.Text "<p>" "\n\n") with
      | .error _ => false
      | .ok _ => s.Kids.all (allOk w n)

/-- Concatenation of strings. -/
def concat : List String → String
  | [] => ""
  | a :: as => a ++ concat as

/-- The header block of an item: its author and its converted text. -/
def header (By t : String) : String := "\n>>>>- by " ++ By ++ " (\n" ++ t

/-- The rendering of the tree under `id` as the specification words it: the
header of the item, then for each child in the order of `Kids` a newline and the
indented rendering of the child, then the closing line. -/
def renderSpec (w : World) : Nat → Int → String
  | 0, _ => ""
  | n + 1, id =>
    match w.fetchItem id with
    | .error _ => ""
    | .ok s =>
      match w.ConvertString (ReplaceAll s.Text "<p>" "\n\n") with
      | .error _ => ""
      | .ok t =>
        header s.By t ++ concat (s.Kids.map (fun k => "\n" ++ indent (renderSpec w n k)))
          ++ "\n)"

/-- Some item that the traversal of `comments` reaches from `id` within depth
`n` does not load or does not convert. -/
def anyFails (w : World) : Nat → Int → Bool
  | 0, _ => false
  | n + 1, id =>
    match w.fetchItem id with
    | .error _ => true
    | .ok s =>
      match w.ConvertString (ReplaceAll s.Text "<p>" "\n\n") with
      | .error _ => true
      | .ok _ => s.Kids.any (anyFails w n)

/-- Go `strings.Contains(s, sub)` over the characters. -/
def containsChars (sub : List Char) : List Char → Bool
  | [] => sub.isEmpty
  | c :: cs => sub.isPrefixOf (c :: cs) || containsChars sub cs

/-- Go `strings.Contains(s, sub)`. -/
def Contains (s sub : String) : Bool := containsChars sub.data s.data

/-! ## Auxiliary definitions of the proofs -/

/-- Joining lists of characters, the character-level view of `Join`. -/
def joinChars (sep : List Char) : List (List Char) → List Char
  | [] => []
  | [l] => l
  | l :: l' :: ls => l ++ sep ++ joinChars sep (l' :: ls)

/-- Writes each value of `arr` at its own position of `init`, in the order of
`arr`. -/
def setAll {α : Type} (init : List α) (arr : List (Nat × α)) : List α :=
  arr.foldl (fun acc p => acc.set p.1 p.2) init

/-- The receive loop of `comments` on the results in their order of arrival. -/
def commentsFold : List result → List String → Except GoError (List String)
  | [], subs => .ok subs
  | r :: rs, subs =>
    match r.err with
    | some err => .error (.wrap "load sub comment: " err)
    | none => commentsFold rs (subs.set r.idx r.s)

/-- The result that the goroutine of a child sends. -/
def commentsResult (li : Nat) (lid : Int) (r : String × Option GoError) : result :=
  match r.2 with
  | some err => { err := some (.wrap ("item " ++ fmtInt lid ++ ": ") err) }
  | none => { s := r.1, idx := li }

/-- The result that the goroutine of a story sends. -/
def topResultOf (w : World) (lidx : Nat) (lid : Int) : topResult :=
  match loadItem w lid with
  | .error err => { err := some (.wrap ("fetch story " ++ fmtInt lid ++ ": ") err) }
  | .ok s => { story := s, idx := lidx }

/-- The values that `n` successive receives take from the tasks, in their order
of arrival, the first receive being number `step`. -/
def arrivals {ρ : Type} (pick : Nat → Nat) : Nat → Nat → List (List ρ) → List ρ
  | 0, _, _ => []
  | n + 1, step, tasks =>
    match recv (pick step) tasks with
    | none => []
    | some (r, tasks') => r :: arrivals pick n (step + 1) tasks'

/-! ## Sample worlds -/

/-- A story 1 with the comments 2 and 3; 2 has the reply 4. -/
def sampleWorld : World where
  topstories := .error (.leaf "unused")
  fetchItem := fun id =>
    if id = 1 then .ok { Id := 1, Title := "T", By := "a", Kids := [2, 3], Text := "r" }
    else if id = 2 then .ok { Id := 2, By := "b", Kids := [4], Text := "x<p>y" }
    else if id = 3 then .ok { Id := 3, By := "c", Text := "z" }
    else if id = 4 then .ok { Id := 4, By := "d", Text := "g" }
    else .error (.leaf "not found")
  ConvertString := fun t => .ok t
  Atoi := fun a => if a = "1" then .ok 1 else .error (.leaf "invalid syntax")

/-- A story 1 with the comments 2 and 3, neither of which loads. -/
def brokenWorld : World where
  topstories := .error (.leaf "unused")
  fetchItem := fun id =>
    if id = 1 then .ok { Id := 1, Title := "T", By := "a", Kids := [2, 3], Text := "r" }
    else if id = 2 then .error (.leaf "timeout")
    else .error (.leaf "not found")
  ConvertString := fun t => .ok t
  Atoi := fun a => if a = "1" then .ok 1 else .error (.leaf "invalid syntax")

/-- Thirty top stories, all of which load. -/
def listingWorld : World where
  topstories := .ok ⟨(List.range 30).map (fun n => (n : Int) + 100), 30⟩
  fetchItem := fun id => .ok { Id := id, Title := "story", By := "a" }
  ConvertString := fun t => .ok t
  Atoi := fun _ => .error (.leaf "invalid syntax")

/-- Thirty top stories, of which the one with id 103 does not load. -/
def holedWorld : World where
  topstories := .ok ⟨(List.range 30).map (fun n => (n : Int) + 100), 30⟩
  fetchItem := fun id =>
    if id = 103 then .error (.leaf "timeout") else .ok { Id := id, Title := "story", By := "a" }
  ConvertString := fun t => .ok t
  Atoi := fun _ => .error (.leaf "invalid syntax")

/-- The remote source answers `[]`: the decoded slice has length and capacity 0. -/
def emptyWorld : World where
  topstories := .ok ⟨[], 0⟩
  fetchItem := fun _ => .error (.leaf "not found")
  ConvertString := fun t => .ok t
  Atoi := fun _ => .error (.leaf "invalid syntax")

/-- The items that `listingWorld` serves for its first 25 stories. -/
def listingItems : List item :=
  (List.range 25).map (fun n => { Id := (n : Int) + 100, Title := "story", By := "a" })

/-- Every item request is answered by a body that is not JSON (an HTML page):
the decoding of the body fails with the message `msg` of `encoding/json`. -/
def garbledWorld (msg : String) : World where
  topstories := .error (.leaf msg)
  fetchItem := fun _ => .error (.leaf msg)
  ConvertString := fun t => .ok t
  Atoi := fun _ => .error (.leaf "invalid syntax")

/-- The schedule that always takes the first ready sender. -/
def firstReady : Sched := fun _ _ => 0

/-- The schedule that always takes the second ready sender when there is one. -/
def secondReady : Sched := fun _ _ => 1

/-! ## Checks on the samples -/

example : comments sampleWorld 3 firstReady 1 = comments sampleWorld 3 secondReady 1 := by decide
example : comments sampleWorld 3 firstReady 1 = some
    ("\n>>>>- by a (\nr\n\t\n\t>>>>- by b (\n\tx\n\t\n\ty\n\t\t\n\t\t>>>>- by d (\n\t\tg\n\t\t)\n\t)\n\t\n\t>>>>- by c (\n\tz\n\t)\n)", none) := by decide

example : run sampleWorld 3 secondReady ["hn", "comments", "1"] = .ret
    { stdout := "T (0pts, 0cms)\n\tby a\n--------------------"
        ++ "\n>>>>- by b (\nx\n\ny\n\t\n\t>>>>- by d (\n\tg\n\t)\n)\n"
        ++ "\n>>>>- by c (\nz\n)\n"
      fan := { launched := 2, received := 2, blocked := 0 } } := by decide
example : run sampleWorld 3 firstReady ["hn", "comments"] = .ret
    { err := some (.leaf "comments: expected exactly 1 arg, got 0") } := by decide
example : run sampleWorld 3 firstReady ["hn", "help"] = .ret {} := by decide
example : indent "" = "\t" := by decide
example : indent "a\nb" = "\ta\n\tb" := by decide
example : indent "a\n" = "\ta\n\t" := by decide
example : ReplaceAll "x<p>y<p<p>" "<p>" "\n\n" = "x\n\ny<p\n\n" := by decide
example : fmtInt (-12) = "-12" := by decide
example : fmtInt 8863 = "8863" := by decide

/-! ## Lemmas on strings -/

theorem Join_data (sep : String) :
    ∀ ls : List String, (Join ls sep).data = joinChars sep.data (ls.map String.data)
  | [] => rfl
  | [_] => rfl
  | l :: l' :: ls => by
    have ih := Join_data sep (l' :: ls)
    simp only [Join, String.data_append, ih, List.map_cons, joinChars]

theorem splitChars_ne_nil (sep : Char) (s : List Char) : splitChars sep s ≠ [] := by
  cases s with
  | nil => simp [splitChars]
  | cons c cs =>
    unfold splitChars
    split
    · simp
    · split <;> simp

theorem splitChars_cons_ne {sep c : Char} (h : c ≠ sep) (cs : List Char) :
    ∃ l ls, splitChars sep cs = l :: ls ∧ splitChars sep (c :: cs) = (c :: l) :: ls := by
  cases hs : splitChars sep cs with
  | nil => exact absurd hs (splitChars_ne_nil sep cs)
  | cons l ls => exact ⟨l, ls, rfl, by simp [splitChars, h, hs]⟩

theorem splitChars_cons_eq (sep : Char) (cs : List Char) :
    splitChars sep (sep :: cs) = [] :: splitChars sep cs := by
  simp [splitChars]

theorem joinChars_cons_cons (sep l : List Char) (l' : List Char) (ls : List (List Char)) :
    joinChars sep (l :: l' :: ls) = l ++ sep ++ joinChars sep (l' :: ls) := rfl

theorem joinChars_cons_of_ne_nil (sep l : List Char) {ls : List (List Char)} (h : ls ≠ []) :
    joinChars sep (l :: ls) = l ++ sep ++ joinChars sep ls := by
  cases ls with
  | nil => exact absurd rfl h
  | cons l' ls => rfl

theorem joinChars_push (sep : List Char) (c : Char) (l : List Char) (ls : List (List Char)) :
    joinChars sep ((c :: l) :: ls) = c :: joinChars sep (l :: ls) := by
  cases ls with
  | nil => rfl
  | cons l' ls => simp [joinChars]

/-- No piece of a split contains the separator. -/
theorem splitChars_no_sep (sep : Char) :
    ∀ (s : List Char), ∀ l ∈ splitChars sep s, sep ∉ l
  | [] => by simp [splitChars]
  | c :: cs => by
    have ih := splitChars_no_sep sep cs
    by_cases h : c = sep
    · subst h
      rw [splitChars_cons_eq]
      intro l hl
      rcases List.mem_cons.1 hl with rfl | hl
      · simp
      · exact ih l hl
    · obtain ⟨l0, ls, h1, h2⟩ := splitChars_cons_ne h cs
      rw [h2]
      rw [h1] at ih
      intro l hl
      rcases List.mem_cons.1 hl with rfl | hl
      · intro hm
        rcases List.mem_cons.1 hm with e | hm
        · exact h e.symm
        · exact ih l0 (List.mem_cons_self _ _) hm
      · exact ih l (List.mem_cons_of_mem _ hl)

theorem splitChars_of_not_mem (sep : Char) :
    ∀ l : List Char, sep ∉ l → splitChars sep l = [l]
  | [], _ => rfl
  | c :: cs, h => by
    have hc : c ≠ sep := fun e => h (by simp [e])
    have ih := splitChars_of_not_mem sep cs (fun hm => h (List.mem_cons_of_mem _ hm))
    simp [splitChars, hc, ih]

theorem splitChars_append_sep (sep : Char) (rest : List Char) :
    ∀ l : List Char, sep ∉ l → splitChars sep (l ++ sep :: rest) = l :: splitChars sep rest
  | [], _ => by simp [splitChars]
  | c :: cs, h => by
    have hc : c ≠ sep := fun e => h (by simp [e])
    have ih := splitChars_append_sep sep rest cs (fun hm => h (List.mem_cons_of_mem _ hm))
    simp [splitChars, hc, ih]

/-- Splitting a join of separator-free pieces gives the pieces back. -/
theorem splitChars_joinChars (sep : Char) :
    ∀ (ls : List (List Char)), ls ≠ [] → (∀ l ∈ ls, sep ∉ l) →
      splitChars sep (joinChars [sep] ls) = ls
  | [], h, _ => absurd rfl h
  | [l], _, hl => splitChars_of_not_mem sep l (hl l (List.mem_singleton.2 rfl))
  | l :: l' :: ls, _, hl => by
    have ih := splitChars_joinChars sep (l' :: ls) (by simp)
      (fun x hx => hl x (List.mem_cons_of_mem _ hx))
    have hmem : sep ∉ l := hl l (List.mem_cons_self _ _)
    rw [joinChars_cons_cons, List.append_assoc, List.singleton_append,
      splitChars_append_sep sep _ l hmem, ih]

/-- The characters of `indent s`: a tab, then `s` with a tab after each newline. -/
theorem indent_chars :
    ∀ s : List Char,
      joinChars ['\n'] ((splitChars '\n' s).map (fun l => '\t' :: l))
        = '\t' :: replaceChars ['\n'] ['\n', '\t'] 0 s
  | [] => rfl
  | c :: cs => by
    have ih := indent_chars cs
    by_cases h : c = '\n'
    · subst h
      rw [splitChars_cons_eq, List.map_cons,
        joinChars_cons_of_ne_nil _ _ (by simpa using splitChars_ne_nil '\n' cs), ih]
      simp [replaceChars]
    · obtain ⟨l0, ls, h1, h2⟩ := splitChars_cons_ne h cs
      rw [h1] at ih
      rw [h2, List.map_cons, joinChars_push, joinChars_push]
      rw [List.map_cons, joinChars_push] at ih
      have ht := List.cons.inj ih
      rw [ht.2]
      simp [replaceChars, h, Ne.symm h]

theorem indent_data (s : String) :
    (indent s).data = '\t' :: replaceChars ['\n'] ['\n', '\t'] 0 s.data := by
  unfold indent Split
  rw [Join_data, ← indent_chars]
  simp [List.map_map, Function.comp_def]

theorem Split_indent (s : String) :
    Split (indent s) '\n' = (Split s '\n').map (fun l => "\t" ++ l) := by
  have h1 : (indent s).data
      = joinChars ['\n'] ((splitChars '\n' s.data).map (fun l => '\t' :: l)) := by
    rw [indent_data, indent_chars]
  unfold Split
  rw [h1, splitChars_joinChars]
  · simp [List.map_map, Function.comp_def]
    intro l _
    rfl
  · simpa using splitChars_ne_nil '\n' s.data
  · intro l hl
    obtain ⟨l0, hl0, rfl⟩ := List.mem_map.1 hl
    intro hm
    rcases List.mem_cons.1 hm with e | hm
    · exact absurd e (by decide)
    · exact splitChars_no_sep '\n' s.data l0 hl0 hm

/-! ## Lemmas on the channel -/

section Channel
variable {ρ : Type}

theorem takeReady_isSome :
    ∀ (tasks : List (List ρ)) (k : Nat), k < readyCount tasks →
      ∃ r tasks', takeReady k tasks = some (r, tasks')
  | [], _, h => by simp [readyCount] at h
  | [] :: ts, k, h => by
    obtain ⟨r, ts', e⟩ := takeReady_isSome ts k (by simpa [readyCount] using h)
    exact ⟨r, [] :: ts', by simp [takeReady, e]⟩
  | (m :: q) :: ts, 0, _ => ⟨m, q :: ts, rfl⟩
  | (m :: q) :: ts, k + 1, h => by
    obtain ⟨r, ts', e⟩ := takeReady_isSome ts k (by simpa [readyCount] using h)
    exact ⟨r, (m :: q) :: ts', by simp [takeReady, e]⟩

/-- A receive succeeds as soon as one task is ready to send. -/
theorem recv_isSome (pick : Nat) (tasks : List (List ρ)) (h : readyCount tasks ≠ 0) :
    ∃ r tasks', recv pick tasks = some (r, tasks') := by
  unfold recv
  rw [if_neg h]
  exact takeReady_isSome tasks _ (Nat.mod_lt _ (Nat.pos_of_ne_zero h))

/-- The value received is the next value of one task, and that task moves on. -/
theorem takeReady_perm :
    ∀ (tasks : List (List ρ)) (k : Nat) (r : ρ) (tasks' : List (List ρ)),
      takeReady k tasks = some (r, tasks') → tasks.flatten.Perm (r :: tasks'.flatten)
  | [], _, _, _, h => by simp [takeReady] at h
  | [] :: ts, k, r, tasks', h => by
    simp only [takeReady] at h
    cases e : takeReady k ts with
    | none => simp [e] at h
    | some p =>
      obtain ⟨r0, ts'⟩ := p
      simp only [e, Option.some.injEq, Prod.mk.injEq] at h
      obtain ⟨rfl, rfl⟩ := h
      simpa using takeReady_perm ts k r0 ts' e
  | (m :: q) :: ts, 0, r, tasks', h => by
    simp only [takeReady, Option.some.injEq, Prod.mk.injEq] at h
    obtain ⟨rfl, rfl⟩ := h
    simp
  | (m :: q) :: ts, k + 1, r, tasks', h => by
    simp only [takeReady] at h
    cases e : takeReady k ts with
    | none => simp [e] at h
    | some p =>
      obtain ⟨r0, ts'⟩ := p
      simp only [e, Option.some.injEq, Prod.mk.injEq] at h
      obtain ⟨rfl, rfl⟩ := h
      have ih := takeReady_perm ts k r0 ts' e
      simp only [List.flatten_cons]
      exact (List.Perm.append_left (m :: q) ih).trans List.perm_middle

theorem recv_perm {pick : Nat} {tasks tasks' : List (List ρ)} {r : ρ}
    (h : recv pick tasks = some (r, tasks')) : tasks.flatten.Perm (r :: tasks'.flatten) := by
  unfold recv at h
  split at h
  · exact absurd h (by simp)
  · exact takeReady_perm _ _ _ _ h

/-- Tasks that send at most once keep doing so. -/
theorem takeReady_atMostOne :
    ∀ (tasks : List (List ρ)) (k : Nat) (r : ρ) (tasks' : List (List ρ)),
      (∀ t ∈ tasks, t.length ≤ 1) → takeReady k tasks = some (r, tasks') →
        ∀ t ∈ tasks', t.length ≤ 1
  | [], _, _, _, _, h => by simp [takeReady] at h
  | [] :: ts, k, r, tasks', h1, h => by
    simp only [takeReady] at h
    cases e : takeReady k ts with
    | none => simp [e] at h
    | some p =>
      obtain ⟨r0, ts'⟩ := p
      simp only [e, Option.some.injEq, Prod.mk.injEq] at h
      obtain ⟨rfl, rfl⟩ := h
      have ih := takeReady_atMostOne ts k r0 ts' (fun t ht => h1 t (List.mem_cons_of_mem _ ht)) e
      intro t ht
      rcases List.mem_cons.1 ht with rfl | ht
      · simp
      · exact ih t ht
  | (m :: q) :: ts, 0, r, tasks', h1, h => by
    simp only [takeReady, Option.some.injEq, Prod.mk.injEq] at h
    obtain ⟨rfl, rfl⟩ := h
    intro t ht
    rcases List.mem_cons.1 ht with rfl | ht
    · have := h1 (m :: t) (List.mem_cons_self _ _)
      simp only [List.length_cons] at this
      omega
    · exact h1 t (List.mem_cons_of_mem _ ht)
  | (m :: q) :: ts, k + 1, r, tasks', h1, h => by
    simp only [takeReady] at h
    cases e : takeReady k ts with
    | none => simp [e] at h
    | some p =>
      obtain ⟨r0, ts'⟩ := p
      simp only [e, Option.some.injEq, Prod.mk.injEq] at h
      obtain ⟨rfl, rfl⟩ := h
      have ih := takeReady_atMostOne ts k r0 ts' (fun t ht => h1 t (List.mem_cons_of_mem _ ht)) e
      intro t ht
      rcases List.mem_cons.1 ht with rfl | ht
      · exact h1 _ (List.mem_cons_self _ _)
      · exact ih t ht

theorem recv_atMostOne {pick : Nat} {tasks tasks' : List (List ρ)} {r : ρ}
    (h1 : ∀ t ∈ tasks, t.length ≤ 1) (h : recv pick tasks = some (r, tasks')) :
    ∀ t ∈ tasks', t.length ≤ 1 := by
  unfold recv at h
  split at h
  · exact absurd h (by simp)
  · exact takeReady_atMostOne _ _ _ _ h1 h

/-- When every task sends at most once, the ready tasks are the values still to
be sent. -/
theorem readyCount_atMostOne :
    ∀ (tasks : List (List ρ)), (∀ t ∈ tasks, t.length ≤ 1) →
      readyCount tasks = tasks.flatten.length
  | [], _ => rfl
  | [] :: ts, h => by
    simpa [readyCount] using readyCount_atMostOne ts (fun t ht => h t (List.mem_cons_of_mem _ ht))
  | (m :: q) :: ts, h => by
    have hq := h (m :: q) (List.mem_cons_self _ _)
    have hq0 : q = [] := by
      cases q with
      | nil => rfl
      | cons a b => simp at hq
    subst hq0
    have ih := readyCount_atMostOne ts (fun t ht => h t (List.mem_cons_of_mem _ ht))
    simp [readyCount, ih]

end Channel

/-! ## Schedules and arrival orders -/

section Arrivals
variable {ρ : Type}

theorem arrivals_congr (pick pick' : Nat → Nat) :
    ∀ (n step : Nat) (tasks : List (List ρ)), (∀ i, step ≤ i → pick i = pick' i) →
      arrivals pick n step tasks = arrivals pick' n step tasks
  | 0, _, _, _ => rfl
  | n + 1, step, tasks, h => by
    simp only [arrivals, h step (Nat.le_refl _)]
    cases recv (pick' step) tasks with
    | none => rfl
    | some p =>
      obtain ⟨r, tasks'⟩ := p
      simp only
      rw [arrivals_congr pick pick' n (step + 1) tasks' (fun i hi => h i (by omega))]

theorem takeReady_of_mem (r : ρ) :
    ∀ (tasks : List (List ρ)), (∀ t ∈ tasks, t.length ≤ 1) → r ∈ tasks.flatten →
      ∃ k tasks', k < readyCount tasks ∧ takeReady k tasks = some (r, tasks')
  | [], _, h => by simp at h
  | [] :: ts, h1, h => by
    obtain ⟨k, ts', hk, e⟩ := takeReady_of_mem r ts
      (fun t ht => h1 t (List.mem_cons_of_mem _ ht)) (by simpa using h)
    exact ⟨k, [] :: ts', by simpa [readyCount] using hk, by simp [takeReady, e]⟩
  | (m :: q) :: ts, h1, h => by
    have hq : q = [] := by
      have := h1 (m :: q) (List.mem_cons_self _ _)
      cases q with
      | nil => rfl
      | cons a b => simp at this
    subst hq
    by_cases hm : r = m
    · subst hm
      exact ⟨0, [] :: ts, by simp [readyCount], rfl⟩
    · have hin : r ∈ ts.flatten := by
        simp only [List.flatten_cons, List.singleton_append, List.mem_cons] at h
        rcases h with h | h
        · exact absurd h hm
        · exact h
      obtain ⟨k, ts', hk, e⟩ := takeReady_of_mem r ts
        (fun t ht => h1 t (List.mem_cons_of_mem _ ht)) hin
      exact ⟨k + 1, [m] :: ts', by simpa [readyCount] using hk, by simp [takeReady, e]⟩

/-- Every order of arrival is the one of some schedule: when each task sends
once, any permutation of the values to be sent is received under some picks. -/
theorem arrivals_any_order :
    ∀ (n step : Nat) (tasks : List (List ρ)) (arr : List ρ),
      (∀ t ∈ tasks, t.length ≤ 1) → readyCount tasks = n → arr.Perm tasks.flatten →
        ∃ pick : Nat → Nat, arrivals pick n step tasks = arr
  | 0, _, tasks, arr, h1, hn, hp => by
    have h0 : tasks.flatten = [] := by
      have := readyCount_atMostOne tasks h1
      rw [hn] at this
      exact List.length_eq_zero.1 this.symm
    rw [h0] at hp
    exact ⟨fun _ => 0, by simp [arrivals, hp.eq_nil]⟩
  | n + 1, step, tasks, arr, h1, hn, hp => by
    cases arr with
    | nil =>
      have a := readyCount_atMostOne tasks h1
      have c := hp.length_eq
      simp only [List.length_nil] at c
      omega
    | cons r rest =>
      have hr : r ∈ tasks.flatten := hp.mem_iff.1 (List.mem_cons_self _ _)
      obtain ⟨k, tasks', hk, e⟩ := takeReady_of_mem r tasks h1 hr
      have h1' := takeReady_atMostOne tasks k r tasks' h1 e
      have hperm := takeReady_perm tasks k r tasks' e
      have hrest : rest.Perm tasks'.flatten := (hp.trans hperm).cons_inv
      have hn' : readyCount tasks' = n := by
        have a := readyCount_atMostOne tasks h1
        have b := readyCount_atMostOne tasks' h1'
        have c := hperm.length_eq
        simp only [List.length_cons] at c
        omega
      obtain ⟨pick', hpick⟩ := arrivals_any_order n (step + 1) tasks' rest h1' hn' hrest
      refine ⟨fun i => if i = step then k else pick' i, ?_⟩
      have hrecv : recv k tasks = some (r, tasks') := by
        unfold recv
        rw [if_neg (by omega), Nat.mod_eq_of_lt hk, e]
      simp only [arrivals, if_true, hrecv]
      rw [arrivals_congr _ pick' n (step + 1) tasks' (fun i hi => by
        have : i ≠ step := by omega
        simp [this]), hpick]

/-- The loop of `comments` returns what its body makes of the results in their
order of arrival. -/
theorem commentsLoop_arrivals (pick : Nat → Nat) :
    ∀ (n step : Nat) (tasks : List (List result)) (subs : List String),
      (∀ t ∈ tasks, t.length ≤ 1) → readyCount tasks = n →
        ∃ k tasks', commentsLoop pick n step tasks subs
          = some (commentsFold (arrivals pick n step tasks) subs, k, tasks')
  | 0, step, tasks, subs, _, _ => ⟨step, tasks, rfl⟩
  | n + 1, step, tasks, subs, h1, hn => by
    obtain ⟨r, tasks', e⟩ := recv_isSome (pick step) tasks (by omega)
    have hp := recv_perm e
    have h1' := recv_atMostOne h1 e
    have hn' : readyCount tasks' = n := by
      have a := readyCount_atMostOne tasks h1
      have b := readyCount_atMostOne tasks' h1'
      have c := hp.length_eq
      simp only [List.length_cons] at c
      omega
    cases he : r.err with
    | some err => exact ⟨step + 1, tasks', by simp [commentsLoop, arrivals, e, he, commentsFold]⟩
    | none =>
      obtain ⟨k, tasks'', hl⟩ :=
        commentsLoop_arrivals pick n (step + 1) tasks' (subs.set r.idx r.s) h1' hn'
      exact ⟨k, tasks'', by simp [commentsLoop, arrivals, e, he, commentsFold, hl]⟩

end Arrivals

/-! ## Lemmas on writing results at their positions -/

theorem setAll_length {α : Type} :
    ∀ (arr : List (Nat × α)) (init : List α), (setAll init arr).length = init.length
  | [], _ => rfl
  | p :: arr, init => by
    have ih := setAll_length arr (init.set p.1 p.2)
    simpa [setAll] using ih

theorem setAll_getElem?_of_not_mem {α : Type} (j : Nat) :
    ∀ (arr : List (Nat × α)) (init : List α), j ∉ arr.map Prod.fst →
      (setAll init arr)[j]? = init[j]?
  | [], _, _ => rfl
  | p :: arr, init, h => by
    have hj : p.1 ≠ j := fun e => h (by simp [e])
    have ih := setAll_getElem?_of_not_mem j arr (init.set p.1 p.2)
      (fun hm => h (by simp only [List.map_cons]; exact List.mem_cons_of_mem _ hm))
    have : setAll init (p :: arr) = setAll (init.set p.1 p.2) arr := rfl
    rw [this, ih, List.getElem?_set_ne hj]

theorem setAll_getElem?_of_mem {α : Type} (j : Nat) (v : α) :
    ∀ (arr : List (Nat × α)) (init : List α), (arr.map Prod.fst).Nodup → (j, v) ∈ arr →
      j < init.length → (setAll init arr)[j]? = some v
  | [], _, _, hm, _ => by simp at hm
  | p :: arr, init, hnd, hm, hj => by
    have hstep : setAll init (p :: arr) = setAll (init.set p.1 p.2) arr := rfl
    rw [hstep]
    simp only [List.map_cons, List.nodup_cons] at hnd
    rcases List.mem_cons.1 hm with e | hm
    · subst e
      rw [setAll_getElem?_of_not_mem _ arr _ hnd.1]
      exact List.getElem?_set_self hj
    · exact setAll_getElem?_of_mem j v arr _ hnd.2 hm (by simpa using hj)

/-- Whatever the order in which the values arrive, writing each at its position
rebuilds the list. -/
theorem setAll_perm_enum {α : Type} (vals init : List α) (h : init.length = vals.length)
    (arr : List (Nat × α)) (hp : arr.Perm vals.enum) : setAll init arr = vals := by
  apply List.ext_getElem?
  intro j
  by_cases hj : j < vals.length
  · have hmem : (j, vals[j]) ∈ arr :=
      hp.mem_iff.2 (List.mk_mem_enum_iff_getElem?.2 (List.getElem?_eq_getElem hj))
    have hnd : (arr.map Prod.fst).Nodup :=
      (hp.map Prod.fst).nodup_iff.2 (by simp [List.nodup_range])
    rw [setAll_getElem?_of_mem j _ arr init hnd hmem (h ▸ hj), List.getElem?_eq_getElem hj]
  · have h1 : (setAll init arr).length ≤ j := by rw [setAll_length, h]; omega
    rw [List.getElem?_eq_none h1, List.getElem?_eq_none (by omega)]

/-! ## Lemmas on the receive loop of `comments` -/

/-- When each task sends once, the loop of `comments` returns, and what it
returns is the outcome on some arrival order of the results. -/
theorem commentsLoop_arrival (pick : Nat → Nat) :
    ∀ (n step : Nat) (tasks : List (List result)) (subs : List String),
      (∀ t ∈ tasks, t.length ≤ 1) → readyCount tasks = n →
        ∃ arr k tasks', arr.Perm tasks.flatten ∧
          commentsLoop pick n step tasks subs = some (commentsFold arr subs, k, tasks')
  | 0, step, tasks, subs, h1, hn => by
    have h0 : tasks.flatten = [] := by
      have := readyCount_atMostOne tasks h1
      rw [hn] at this
      exact List.length_eq_zero.1 this.symm
    exact ⟨[], step, tasks, by simp [h0], rfl⟩
  | n + 1, step, tasks, subs, h1, hn => by
    obtain ⟨r, tasks', e⟩ := recv_isSome (pick step) tasks (by omega)
    have hp := recv_perm e
    have h1' := recv_atMostOne h1 e
    have hn' : readyCount tasks' = n := by
      have a := readyCount_atMostOne tasks h1
      have b := readyCount_atMostOne tasks' h1'
      have c := hp.length_eq
      simp only [List.length_cons] at c
      omega
    cases he : r.err with
    | some err =>
      refine ⟨r :: tasks'.flatten, step + 1, tasks', hp.symm, ?_⟩
      simp [commentsLoop, e, he, commentsFold]
    | none =>
      obtain ⟨arr, k, tasks'', hperm, hl⟩ :=
        commentsLoop_arrival pick n (step + 1) tasks' (subs.set r.idx r.s) h1' hn'
      refine ⟨r :: arr, k, tasks'', ((List.Perm.cons r hperm).trans hp.symm), ?_⟩
      simp [commentsLoop, e, he, commentsFold, hl]

theorem commentsFold_ok :
    ∀ (arr : List result) (subs : List String), (∀ r ∈ arr, r.err = none) →
      commentsFold arr subs = .ok (setAll subs (arr.map (fun r => (r.idx, r.s))))
  | [], _, _ => rfl
  | r :: rs, subs, h => by
    have hr := h r (List.mem_cons_self _ _)
    have ih := commentsFold_ok rs (subs.set r.idx r.s) (fun x hx => h x (List.mem_cons_of_mem _ hx))
    simp [commentsFold, hr, ih, setAll]

theorem commentsFold_error :
    ∀ (arr : List result) (subs : List String), (∃ r ∈ arr, r.err ≠ none) →
      ∃ r ∈ arr, ∃ e, r.err = some e ∧
        commentsFold arr subs = .error (.wrap "load sub comment: " e)
  | [], _, h => by simp at h
  | r :: rs, subs, h => by
    cases he : r.err with
    | some e => exact ⟨r, List.mem_cons_self _ _, e, he, by simp [commentsFold, he]⟩
    | none =>
      have h' : ∃ x ∈ rs, x.err ≠ none := by
        obtain ⟨x, hx, hxe⟩ := h
        rcases List.mem_cons.1 hx with rfl | hx
        · exact absurd he hxe
        · exact ⟨x, hx, hxe⟩
      obtain ⟨x, hx, e, hxe, hf⟩ := commentsFold_error rs (subs.set r.idx r.s) h'
      exact ⟨x, List.mem_cons_of_mem _ hx, e, hxe, by simp [commentsFold, he, hf]⟩

/-! ## Lemmas on `comments` -/

theorem commentsTask_eq (li : Nat) (lid : Int) (r : String × Option GoError) :
    commentsTask li lid r = [commentsResult li lid r] := by
  unfold commentsTask commentsResult
  cases r.2 <;> rfl

theorem launch_of_forall {ρ : Type} (task : Nat → Int → Option (List ρ))
    (g : Nat → Int → List ρ) :
    ∀ (kids : List Int) (i : Nat),
      (∀ p ∈ kids.enumFrom i, task p.1 p.2 = some (g p.1 p.2)) →
        launch task i kids = some ((kids.enumFrom i).map (fun p => g p.1 p.2))
  | [], _, _ => rfl
  | id :: ids, i, h => by
    have h0 := h (i, id) (by simp)
    have ih := launch_of_forall task g ids (i + 1)
      (fun p hp => h p (by simp only [List.enumFrom_cons]; exact List.mem_cons_of_mem _ hp))
    simp only [launch, h0, ih, List.enumFrom_cons, List.map_cons]

theorem flatten_map_singleton {α β : Type} (f : α → β) :
    ∀ l : List α, (l.map (fun x => [f x])).flatten = l.map f
  | [] => rfl
  | a :: l => by simp [flatten_map_singleton f l]

theorem foldl_write (f : String → String) :
    ∀ (subs : List String) (out : String),
      subs.foldl (fun out ss => out ++ "\n" ++ f ss) out
        = out ++ concat (subs.map (fun ss => "\n" ++ f ss))
  | [], out => by simp [concat]
  | a :: subs, out => by
    simp only [List.foldl_cons, List.map_cons, concat, foldl_write f subs]
    simp only [String.append_assoc]

/-- One call of `comments` whose item loads and converts and whose children all
return: the call returns, and what it returns is what the receive loop makes
of some arrival order of the results of the children. -/
theorem commentsCall_step (w : World) (fuel : Nat) (sched : Sched) (id : Int)
    (s : item) (t : String) (rets : Nat → Int → String × Option GoError)
    (hl : w.fetchItem id = .ok s)
    (hc : w.ConvertString (ReplaceAll s.Text "<p>" "\n\n") = .ok t)
    (hk : ∀ p ∈ s.Kids.enum, comments w fuel (sched.child p.1) p.2 = some (rets p.1 p.2)) :
    ∃ arr, arr.Perm (s.Kids.enum.map (fun p => commentsResult p.1 p.2 (rets p.1 p.2))) ∧
      comments w (fuel + 1) sched id = some
        (match commentsFold arr (List.replicate s.Kids.length "") with
         | .error err => ("", some err)
         | .ok subs =>
           ("\n>>>>- by " ++ s.By ++ " (\n" ++ t
              ++ concat (subs.map (fun ss => "\n" ++ indent ss)) ++ "\n)", none)) := by
  have htasks : launch (fun li lid =>
      (commentsCall w fuel (sched.child li) lid).map (fun c => commentsTask li lid c.ret))
        0 s.Kids
      = some ((s.Kids.enumFrom 0).map (fun p => [commentsResult p.1 p.2 (rets p.1 p.2)])) := by
    apply launch_of_forall _ (fun li lid => [commentsResult li lid (rets li lid)])
    intro p hp
    have := hk p hp
    unfold comments at this
    cases hcc : commentsCall w fuel (sched.child p.1) p.2 with
    | none => simp [hcc] at this
    | some c =>
      simp only [hcc, Option.map_some', Option.some.injEq] at this
      simp [this, commentsTask_eq]
  have h1 : ∀ t ∈ (s.Kids.enumFrom 0).map
      (fun p => [commentsResult p.1 p.2 (rets p.1 p.2)]), t.length ≤ 1 := by
    intro t ht
    obtain ⟨p, _, rfl⟩ := List.mem_map.1 ht
    simp
  have hflat := flatten_map_singleton (fun p : Nat × Int => commentsResult p.1 p.2 (rets p.1 p.2))
    (s.Kids.enumFrom 0)
  have hn : readyCount ((s.Kids.enumFrom 0).map
      (fun p => [commentsResult p.1 p.2 (rets p.1 p.2)])) = s.Kids.length := by
    rw [readyCount_atMostOne _ h1, hflat]
    simp
  obtain ⟨arr, k, tasks', hperm, hloop⟩ :=
    commentsLoop_arrival (sched []) s.Kids.length 0 _ (List.replicate s.Kids.length "") h1 hn
  rw [hflat] at hperm
  refine ⟨arr, hperm, ?_⟩
  unfold comments
  simp only [commentsCall, loadItem, hl, hc, htasks, hloop]
  cases commentsFold arr (List.replicate s.Kids.length "") with
  | error err => rfl
  | ok subs => simp [foldl_write]

theorem mem_enum_of_mem {α : Type} {a : α} {l : List α} (h : a ∈ l) :
    ∃ i, (i, a) ∈ l.enum := by
  obtain ⟨i, hi, e⟩ := List.getElem_of_mem h
  exact ⟨i, List.mk_mem_enum_iff_getElem?.2 (by rw [List.getElem?_eq_getElem hi, e])⟩

theorem mem_of_mem_enum {α : Type} {p : Nat × α} {l : List α} (h : p ∈ l.enum) :
    p.2 ∈ l := by
  obtain ⟨i, a⟩ := p
  have := List.mk_mem_enum_iff_getElem?.1 h
  exact List.getElem?_mem this

/-- When the whole tree loads and converts, `comments` returns its rendering,
whatever the schedule. -/
theorem comments_of_allOk (w : World) :
    ∀ (fuel : Nat) (sched : Sched) (id : Int), allOk w fuel id = true →
      comments w fuel sched id = some (renderSpec w fuel id, none)
  | 0, _, _, h => by simp [allOk] at h
  | fuel + 1, sched, id, h => by
    unfold allOk at h
    cases hl : w.fetchItem id with
    | error e => simp [hl] at h
    | ok s =>
      cases hc : w.ConvertString (ReplaceAll s.Text "<p>" "\n\n") with
      | error e => simp [hl, hc] at h
      | ok t =>
        simp only [hl, hc, List.all_eq_true] at h
        obtain ⟨arr, hperm, hret⟩ := commentsCall_step w fuel sched id s t
          (fun _ lid => (renderSpec w fuel lid, none)) hl hc
          (fun p hp => comments_of_allOk w fuel _ p.2 (h p.2 (mem_of_mem_enum hp)))
        have hres : (fun p : Nat × Int =>
            commentsResult p.1 p.2 (renderSpec w fuel p.2, none))
            = (fun p => ({ s := renderSpec w fuel p.2, idx := p.1 } : result)) := rfl
        rw [hres] at hperm
        have hnone : ∀ r ∈ arr, r.err = none := by
          intro r hr
          obtain ⟨p, _, rfl⟩ := List.mem_map.1 (hperm.mem_iff.1 hr)
          rfl
        have hpairs : (arr.map (fun r => (r.idx, r.s))).Perm
            (s.Kids.map (renderSpec w fuel)).enum := by
          have := hperm.map (fun r => (r.idx, r.s))
          rw [List.map_map] at this
          rw [List.enum_map]
          exact this
        have hsubs := setAll_perm_enum (s.Kids.map (renderSpec w fuel))
          (List.replicate s.Kids.length "") (by simp) _ hpairs
        rw [commentsFold_ok arr _ hnone, hsubs] at hret
        rw [hret]
        simp [renderSpec, hl, hc, header, List.map_map, Function.comp_def]

/-- A call of `comments` whose traversal is finite returns: the rendering when
the whole tree loads and converts, the empty string and an error otherwise. -/
theorem comments_outcome (w : World) :
    ∀ (fuel : Nat) (sched : Sched) (id : Int), fits w fuel id = true →
      (allOk w fuel id = true ∧ comments w fuel sched id = some (renderSpec w fuel id, none))
      ∨ (allOk w fuel id = false ∧ ∃ e, comments w fuel sched id = some ("", some e))
  | 0, _, _, h => by simp [fits] at h
  | fuel + 1, sched, id, h => by
    by_cases hall : allOk w (fuel + 1) id = true
    · exact Or.inl ⟨hall, comments_of_allOk w _ sched id hall⟩
    · have hall' : allOk w (fuel + 1) id = false := by simpa using hall
      refine Or.inr ⟨hall', ?_⟩
      unfold fits at h
      unfold allOk at hall'
      cases hl : w.fetchItem id with
      | error e =>
        exact ⟨.wrap "fetch story: " (.wrap "fetch: " e),
          by simp [comments, commentsCall, loadItem, hl]⟩
      | ok s =>
        cases hc : w.ConvertString (ReplaceAll s.Text "<p>" "\n\n") with
        | error e =>
          exact ⟨.wrap "parse comment: " e,
            by simp [comments, commentsCall, loadItem, hl, hc]⟩
        | ok t =>
          simp only [hl, hc, List.all_eq_true] at h
          simp only [hl, hc, List.all_eq_false] at hall'
          obtain ⟨k, hk, hkbad⟩ := hall'
          have hkbad' : allOk w fuel k = false := by simpa using hkbad
          have hsome : ∀ p ∈ s.Kids.enum, comments w fuel (sched.child p.1) p.2
              = some ((comments w fuel (sched.child p.1) p.2).getD ("", none)) := by
            intro p hp
            rcases comments_outcome w fuel (sched.child p.1) p.2 (h p.2 (mem_of_mem_enum hp))
              with ⟨_, e⟩ | ⟨_, _, e⟩ <;> simp [e]
          obtain ⟨arr, hperm, hret⟩ := commentsCall_step w fuel sched id s t
            (fun li lid => (comments w fuel (sched.child li) lid).getD ("", none)) hl hc hsome
          obtain ⟨i, hi⟩ := mem_enum_of_mem hk
          have hbad : ∃ r ∈ arr, r.err ≠ none := by
            refine ⟨_, hperm.mem_iff.2 (List.mem_map.2 ⟨(i, k), hi, rfl⟩), ?_⟩
            rcases comments_outcome w fuel (sched.child i) k (h k hk)
              with ⟨hok, _⟩ | ⟨_, e, he⟩
            · rw [hok] at hkbad'
              exact absurd hkbad' (by simp)
            · simp [he, commentsResult]
          obtain ⟨r, _, e, _, hf⟩ := commentsFold_error arr (List.replicate s.Kids.length "") hbad
          rw [hf] at hret
          exact ⟨_, hret⟩

/-! ## Lemmas on `top` -/

theorem topTask_eq (w : World) (lidx : Nat) (lid : Int) :
    topTask w lidx lid = [topResultOf w lidx lid] := by
  unfold topTask topResultOf
  cases loadItem w lid <;> rfl

theorem topTasks_eq (w : World) :
    ∀ (ids : List Int) (i : Nat),
      topTasks w i ids = (ids.enumFrom i).map (fun p => [topResultOf w p.1 p.2])
  | [], _ => rfl
  | id :: ids, i => by
    simp [topTasks, topTask_eq, topTasks_eq w ids (i + 1)]

/-- The loop of `top` receives every result when each task sends once: it
returns after `n` receives, nobody is left waiting, and `items` holds the
stories written at their positions in some arrival order. -/
theorem topLoop_arrival (pick : Nat → Nat) :
    ∀ (n step : Nat) (tasks : List (List topResult)) (items : List item),
      (∀ t ∈ tasks, t.length ≤ 1) → readyCount tasks = n →
        ∃ (arr : List topResult) (tasks' : List (List topResult)),
          arr.Perm tasks.flatten ∧ readyCount tasks' = 0 ∧
          topLoop pick n step tasks items
            = some (setAll items (arr.map (fun r => (r.idx, r.story))), step + n, tasks')
  | 0, step, tasks, items, h1, hn => by
    have h0 : tasks.flatten = [] := by
      have := readyCount_atMostOne tasks h1
      rw [hn] at this
      exact List.length_eq_zero.1 this.symm
    exact ⟨[], tasks, by simp [h0], hn, rfl⟩
  | n + 1, step, tasks, items, h1, hn => by
    obtain ⟨r, tasks', e⟩ := recv_isSome (pick step) tasks (by omega)
    have hp := recv_perm e
    have h1' := recv_atMostOne h1 e
    have hn' : readyCount tasks' = n := by
      have a := readyCount_atMostOne tasks h1
      have b := readyCount_atMostOne tasks' h1'
      have c := hp.length_eq
      simp only [List.length_cons] at c
      omega
    obtain ⟨arr, tasks'', hperm, h0, hl⟩ :=
      topLoop_arrival pick n (step + 1) tasks' (items.set r.idx r.story) h1' hn'
    refine ⟨r :: arr, tasks'', ((List.Perm.cons r hperm).trans hp.symm), h0, ?_⟩
    simp only [topLoop, e, hl, List.map_cons, setAll, List.foldl_cons]
    congr 3
    omega

/-- Once the list of stories is loaded and can be cut at 25, `top` returns
without an error, having received all 25 results and printed 25 entries written
from the results in some arrival order. -/
theorem top_step (w : World) (sched : Sched) (stories : GoSlice Int)
    (ht : w.topstories = .ok stories) (hcap : 25 ≤ stories.cap) :
    ∃ arr : List topResult,
      arr.Perm (((stories.arr.take 25).enum).map (fun p => topResultOf w p.1 p.2)) ∧
      top w sched = .ret
        { err := none
          items := setAll (List.replicate 25 {}) (arr.map (fun r => (r.idx, r.story)))
          stdout := topPrint 0
            (setAll (List.replicate 25 {}) (arr.map (fun r => (r.idx, r.story))))
          fan := ⟨25, 25, 0⟩ } := by
  have hlen : (stories.arr.take 25).length = 25 := by
    unfold GoSlice.cap at hcap
    simp [List.length_take]
    omega
  have h1 : ∀ t ∈ topTasks w 0 (stories.arr.take 25), t.length ≤ 1 := by
    intro t ht'
    rw [topTasks_eq] at ht'
    obtain ⟨p, _, rfl⟩ := List.mem_map.1 ht'
    simp
  have hflat : (topTasks w 0 (stories.arr.take 25)).flatten
      = ((stories.arr.take 25).enum).map (fun p => topResultOf w p.1 p.2) := by
    rw [topTasks_eq]
    exact flatten_map_singleton (fun p : Nat × Int => topResultOf w p.1 p.2) _
  have hn : readyCount (topTasks w 0 (stories.arr.take 25)) = 25 := by
    rw [readyCount_atMostOne _ h1, hflat]
    simp [hlen]
  obtain ⟨arr, tasks', hperm, h0, hloop⟩ :=
    topLoop_arrival (sched []) 25 0 _ (List.replicate 25 {}) h1 hn
  rw [hflat] at hperm
  refine ⟨arr, hperm, ?_⟩
  unfold top
  simp only [ht, GoSlice.sliceTo, if_pos hcap, GoSlice.elems, hlen, hloop, h0]

theorem any_eq_not_all {α : Type} (f g : α → Bool) :
    ∀ l : List α, (∀ a ∈ l, f a = !g a) → l.any f = !l.all g
  | [], _ => rfl
  | a :: l, h => by
    have ha := h a (List.mem_cons_self _ _)
    have ih := any_eq_not_all f g l (fun x hx => h x (List.mem_cons_of_mem _ hx))
    simp only [List.any_cons, List.all_cons, ha, ih, Bool.not_and]

theorem anyFails_eq_not_allOk (w : World) :
    ∀ (n : Nat) (id : Int), fits w n id = true → anyFails w n id = !allOk w n id
  | 0, _, h => by simp [fits] at h
  | n + 1, id, h => by
    unfold fits at h
    unfold anyFails allOk
    cases hl : w.fetchItem id with
    | error e => rfl
    | ok s =>
      cases hc : w.ConvertString (ReplaceAll s.Text "<p>" "\n\n") with
      | error e => simp only [hc]; rfl
      | ok t =>
        simp only [hl, hc, List.all_eq_true] at h
        simp only [hc]
        exact any_eq_not_all _ _ s.Kids (fun k hk => anyFails_eq_not_allOk w n k (h k hk))

/-- A call of `comments` one of whose children fails: it returns the empty
string and the wrapped error of a failing child. -/
theorem comments_child_error (w : World) (fuel : Nat) (sched : Sched) (id : Int)
    (s : item) (t : String)
    (hl : w.fetchItem id = .ok s)
    (hc : w.ConvertString (ReplaceAll s.Text "<p>" "\n\n") = .ok t)
    (hfit : ∀ k ∈ s.Kids, fits w fuel k = true)
    (hbad : ∃ k ∈ s.Kids, allOk w fuel k = false) :
    ∃ i lid e, s.Kids[i]? = some lid ∧ allOk w fuel lid = false ∧
      comments w fuel (sched.child i) lid = some ("", some e) ∧
      comments w (fuel + 1) sched id = some
        ("", some (.wrap "load sub comment: " (.wrap ("item " ++ fmtInt lid ++ ": ") e))) := by
  have hsome : ∀ p ∈ s.Kids.enum, comments w fuel (sched.child p.1) p.2
      = some ((comments w fuel (sched.child p.1) p.2).getD ("", none)) := by
    intro p hp
    rcases comments_outcome w fuel (sched.child p.1) p.2 (hfit p.2 (mem_of_mem_enum hp))
      with ⟨_, e⟩ | ⟨_, _, e⟩ <;> simp [e]
  obtain ⟨arr, hperm, hret⟩ := commentsCall_step w fuel sched id s t
    (fun li lid => (comments w fuel (sched.child li) lid).getD ("", none)) hl hc hsome
  obtain ⟨k, hk, hkbad⟩ := hbad
  obtain ⟨i, hi⟩ := mem_enum_of_mem hk
  have hex : ∃ r ∈ arr, r.err ≠ none := by
    refine ⟨_, hperm.mem_iff.2 (List.mem_map.2 ⟨(i, k), hi, rfl⟩), ?_⟩
    rcases comments_outcome w fuel (sched.child i) k (hfit k hk) with ⟨hok, _⟩ | ⟨_, e, he⟩
    · rw [hok] at hkbad
      exact absurd hkbad (by simp)
    · simp [he, commentsResult]
  obtain ⟨r, hr, e', hre, hf⟩ := commentsFold_error arr (List.replicate s.Kids.length "") hex
  obtain ⟨p, hp, rfl⟩ := List.mem_map.1 (hperm.mem_iff.1 hr)
  rw [hf] at hret
  rcases comments_outcome w fuel (sched.child p.1) p.2 (hfit p.2 (mem_of_mem_enum hp))
    with ⟨_, he⟩ | ⟨hno, e, he⟩
  · simp [he, commentsResult] at hre
  · simp only [he, Option.getD_some, commentsResult, Option.some.injEq] at hre
    subst hre
    exact ⟨p.1, p.2, e, List.mk_mem_enum_iff_getElem?.1 hp, hno, he, hret⟩

/-- The print loop of `top` writes, for each item in turn, the entry that
carries its position plus one. -/
theorem topPrint_eq :
    ∀ (its : List item) (i : Nat),
      topPrint i its = concat ((its.enumFrom i).map (fun p =>
        fmtInt ((p.1 : Nat) + 1) ++ ".  " ++ p.2.Title ++ "\n"
          ++ fmtInt p.2.Score ++ "pts\tby " ++ p.2.By ++ "\n\t\t"
          ++ fmtInt p.2.Descendants ++ " comments: exec://hn/comments/" ++ fmtInt p.2.Id
          ++ "\n\t\t" ++ p.2.Url ++ "\n"))
  | [], _ => rfl
  | it :: its, i => by
    simp only [topPrint, List.enumFrom_cons, List.map_cons, concat, topPrint_eq its (i + 1)]
    rfl

theorem containsChars_mid (sub post : List Char) :
    ∀ pre : List Char, containsChars sub (pre ++ sub ++ post) = true
  | [] => by
    cases h : sub ++ post with
    | nil =>
      obtain ⟨h1, h2⟩ := List.append_eq_nil.1 h
      subst h1 h2
      rfl
    | cons c cs =>
      have hp : sub.isPrefixOf (c :: cs) = true := by
        rw [← h]
        exact List.isPrefixOf_iff_prefix.2 (List.prefix_append _ _)
      simp [containsChars, h, hp]
  | c :: pre => by
    have ih := containsChars_mid sub post pre
    simp only [List.cons_append, List.append_assoc, containsChars] at ih ⊢
    simp [ih]

/-- A message that is put together from a prefix, a text and a suffix contains
the text. -/
theorem Contains_mid (a b c : String) : Contains (a ++ b ++ c) b = true := by
  unfold Contains
  simp only [String.data_append]
  exact containsChars_mid b.data c.data a.data

/-! ## The claims -/

/-- C1. When the item `id` loads and converts and the tree under each of its
children loads and converts, `comments` returns without error, for every
schedule (every arrival order), the header of the item followed, for each child
in the order of `Kids`, by a newline and the indented string that `comments`
returns for that child, followed by the closing line; for a leaf this is the
header and the closing line alone. -/
theorem comments_renders_in_kids_order (w : World) (fuel : Nat) (id : Int)
    (s : item) (t : String)
    (hl : w.fetchItem id = .ok s)
    (hc : w.ConvertString (ReplaceAll s.Text "<p>" "\n\n") = .ok t)
    (hk : ∀ k ∈ s.Kids, allOk w fuel k = true) :
    (∀ sched, comments w (fuel + 1) sched id = some
        (header s.By t ++ concat (s.Kids.map (fun k => "\n" ++ indent (renderSpec w fuel k)))
          ++ "\n)", none))
    ∧ (∀ k ∈ s.Kids, ∀ sched, comments w fuel sched k = some (renderSpec w fuel k, none))
    ∧ (s.Kids = [] → ∀ sched, comments w (fuel + 1) sched id
        = some (header s.By t ++ "\n)", none)) := by
  have hall : allOk w (fuel + 1) id = true := by
    simp only [allOk, hl, hc, List.all_eq_true]
    exact hk
  have hmain : ∀ sched, comments w (fuel + 1) sched id = some
      (header s.By t ++ concat (s.Kids.map (fun k => "\n" ++ indent (renderSpec w fuel k)))
        ++ "\n)", none) := by
    intro sched
    rw [comments_of_allOk w (fuel + 1) sched id hall]
    simp only [renderSpec, hl, hc]
  refine ⟨hmain, fun k hkm sched => comments_of_allOk w fuel sched k (hk k hkm), ?_⟩
  intro hnil sched
  rw [hmain sched, hnil]
  simp [concat]

/-- Witness of C1 on the sample tree, under the schedule that takes the second
ready sender. -/
theorem comments_renders_in_kids_order_witness :
    comments sampleWorld 3 secondReady 1 = some
      (header "a" "r"
        ++ concat ([2, 3].map (fun k => "\n" ++ indent (renderSpec sampleWorld 2 k)))
        ++ "\n)", none) :=
  (comments_renders_in_kids_order sampleWorld 2 1
    { Id := 1, Title := "T", By := "a", Kids := [2, 3], Text := "r" } "r" rfl rfl
    (by decide)).1 secondReady

/-- C7. When the traversal from `id` is finite, then for every schedule
`comments` returns the empty string with an error as soon as some item reached
by the traversal does not load or does not convert, and it returns a string
without error only when the whole tree under `id` loads and converts. -/
theorem comments_all_or_nothing (w : World) (fuel : Nat) (sched : Sched) (id : Int)
    (h : fits w fuel id = true) :
    (anyFails w fuel id = true → ∃ e, comments w fuel sched id = some ("", some e))
    ∧ (∀ out, comments w fuel sched id = some (out, none) →
        anyFails w fuel id = false ∧ allOk w fuel id = true) := by
  have hany := anyFails_eq_not_allOk w fuel id h
  rcases comments_outcome w fuel sched id h with ⟨hok, _⟩ | ⟨hno, e, he⟩
  · refine ⟨fun hf => ?_, fun out _ => ⟨by simp [hany, hok], hok⟩⟩
    rw [hany, hok] at hf
    exact absurd hf (by simp)
  · refine ⟨fun _ => ⟨e, he⟩, fun out ho => ?_⟩
    rw [he] at ho
    simp at ho

/-- Witness of C7: in the tree whose comments do not load, the root fails with
the empty string. -/
theorem comments_all_or_nothing_witness :
    fits brokenWorld 2 1 = true ∧ anyFails brokenWorld 2 1 = true ∧
      ∃ e, comments brokenWorld 2 secondReady 1 = some ("", some e) :=
  ⟨by decide, by decide,
    (comments_all_or_nothing brokenWorld 2 secondReady 1 (by decide)).1 (by decide)⟩

/-- C4 as it holds. When an item loads and converts, the traversals of its
children are finite and at least one child fails, then for every schedule
`comments` returns the empty string and the error
`load sub comment: item <lid>: <e>` where `lid` is one of the failing children
and `e` the error that `comments` returned for it. -/
theorem comments_reports_a_failing_child (w : World) (fuel : Nat) (sched : Sched) (id : Int)
    (s : item) (t : String)
    (hl : w.fetchItem id = .ok s)
    (hc : w.ConvertString (ReplaceAll s.Text "<p>" "\n\n") = .ok t)
    (hfit : ∀ k ∈ s.Kids, fits w fuel k = true)
    (hbad : ∃ k ∈ s.Kids, allOk w fuel k = false) :
    ∃ i lid e, s.Kids[i]? = some lid ∧ allOk w fuel lid = false ∧
      comments w fuel (sched.child i) lid = some ("", some e) ∧
      comments w (fuel + 1) sched id = some
        ("", some (.wrap "load sub comment: " (.wrap ("item " ++ fmtInt lid ++ ": ") e))) :=
  comments_child_error w fuel sched id s t hl hc hfit hbad

/-- Witness of C4 as it holds, on the tree whose two comments do not load. -/
theorem comments_reports_a_failing_child_witness :
    ∃ i lid e, [(2 : Int), 3][i]? = some lid ∧ allOk brokenWorld 1 lid = false ∧
      comments brokenWorld 1 (firstReady.child i) lid = some ("", some e) ∧
      comments brokenWorld 2 firstReady 1 = some
        ("", some (.wrap "load sub comment: " (.wrap ("item " ++ fmtInt lid ++ ": ") e))) :=
  comments_reports_a_failing_child brokenWorld 1 firstReady 1
    { Id := 1, Title := "T", By := "a", Kids := [2, 3], Text := "r" } "r" rfl rfl
    (by decide) (by decide)

/-- C4 as stated fails: the comments 2 and 3 both fail, 2 has the lowest
position, and when the result of 3 arrives first the error reported is the one
of 3. -/
theorem comments_reports_first_arrival :
    comments brokenWorld 1 (secondReady.child 0) 2
        = some ("", some (.wrap "fetch story: " (.wrap "fetch: " (.leaf "timeout"))))
    ∧ comments brokenWorld 2 secondReady 1
        = some ("", some (.wrap "load sub comment: " (.wrap "item 3: "
            (.wrap "fetch story: " (.wrap "fetch: " (.leaf "not found"))))))
    ∧ comments brokenWorld 2 secondReady 1
        ≠ some ("", some (.wrap "load sub comment: " (.wrap "item 2: "
            (.wrap "fetch story: " (.wrap "fetch: " (.leaf "timeout")))))) := by
  decide

/-- C2. When the list of top stories has at least 25 ids and the first 25
items all load, `its` being the items loaded for these ids in the order of the
list, then for every schedule (every arrival order) `top` returns without error
having received the 25 results, the slice `items` is `its`, and the output is,
for each position `i` in turn, the entry numbered `i + 1` written from the item
at position `i` of `its`. -/
theorem top_items_in_list_order (w : World) (sched : Sched) (stories : GoSlice Int)
    (its : List item)
    (ht : w.topstories = .ok stories) (hlen : 25 ≤ stories.len)
    (hwf : stories.len ≤ stories.cap)
    (hok : (stories.arr.take 25).map w.fetchItem = its.map Except.ok) :
    ∃ t, top w sched = .ret t ∧ t.err = none ∧ t.items = its ∧
      t.items.map Except.ok = (stories.arr.take 25).map w.fetchItem ∧
      t.stdout = concat (its.enum.map (fun p =>
        fmtInt ((p.1 : Nat) + 1) ++ ".  " ++ p.2.Title ++ "\n"
          ++ fmtInt p.2.Score ++ "pts\tby " ++ p.2.By ++ "\n\t\t"
          ++ fmtInt p.2.Descendants ++ " comments: exec://hn/comments/" ++ fmtInt p.2.Id
          ++ "\n\t\t" ++ p.2.Url ++ "\n")) ∧
      t.fan = ⟨25, 25, 0⟩ := by
  have hok' : ∀ id ∈ stories.arr.take 25, ∃ it, w.fetchItem id = .ok it := by
    intro id hid
    have hm : w.fetchItem id ∈ its.map Except.ok := by
      rw [← hok]
      exact List.mem_map_of_mem _ hid
    obtain ⟨it, _, hit⟩ := List.mem_map.1 hm
    exact ⟨it, hit.symm⟩
  obtain ⟨arr, hperm, htop⟩ := top_step w sched stories ht (le_trans hlen hwf)
  have hlen25 : (stories.arr.take 25).length = 25 := by
    unfold GoSlice.cap at hwf
    simp [List.length_take]
    omega
  have hres : ∀ p ∈ (stories.arr.take 25).enum,
      topResultOf w p.1 p.2
        = { story := (match w.fetchItem p.2 with | .ok it => it | .error _ => {}),
            idx := p.1 } := by
    intro p hp
    obtain ⟨it, hit⟩ := hok' p.2 (mem_of_mem_enum hp)
    simp [topResultOf, loadItem, hit]
  have hpairs : (arr.map (fun r => (r.idx, r.story))).Perm
      ((stories.arr.take 25).map
        (fun id => match w.fetchItem id with | .ok it => it | .error _ => {})).enum := by
    have h1 := hperm.map (fun r => (r.idx, r.story))
    rw [List.map_map] at h1
    rw [List.enum_map]
    refine h1.trans (List.Perm.of_eq ?_)
    apply List.map_congr_left
    intro p hp
    simp [hres p hp, Prod.map]
  have hitems := setAll_perm_enum _ (List.replicate 25 {})
    (by simp only [List.length_replicate, List.length_map, hlen25]) _ hpairs
  have hits : (stories.arr.take 25).map
      (fun id => match w.fetchItem id with | .ok it => it | .error _ => {}) = its := by
    have h2 : (stories.arr.take 25).map
        (fun id => match w.fetchItem id with | .ok it => it | .error _ => {})
        = ((stories.arr.take 25).map w.fetchItem).map
            (fun r => match r with | .ok it => it | .error _ => ({} : item)) := by
      rw [List.map_map]
      rfl
    rw [h2, hok, List.map_map]
    exact List.map_id _
  rw [hitems, hits] at htop
  refine ⟨_, htop, rfl, rfl, hok.symm, ?_, rfl⟩
  exact topPrint_eq its 0

/-- Witness of C2: thirty stories that all load, the second ready sender first. -/
theorem top_items_in_list_order_witness :
    ∃ t, top listingWorld secondReady = .ret t ∧ t.err = none ∧
      t.items = listingItems ∧
      t.items.map Except.ok
        = (((List.range 30).map (fun n => (n : Int) + 100)).take 25).map
            listingWorld.fetchItem ∧
      t.stdout = concat (listingItems.enum.map (fun p =>
        fmtInt ((p.1 : Nat) + 1) ++ ".  " ++ p.2.Title ++ "\n"
          ++ fmtInt p.2.Score ++ "pts\tby " ++ p.2.By ++ "\n\t\t"
          ++ fmtInt p.2.Descendants ++ " comments: exec://hn/comments/" ++ fmtInt p.2.Id
          ++ "\n\t\t" ++ p.2.Url ++ "\n")) ∧
      t.fan = ⟨25, 25, 0⟩ :=
  top_items_in_list_order listingWorld secondReady
    ⟨(List.range 30).map (fun n => (n : Int) + 100), 30⟩ listingItems
    rfl (by decide) (by decide) rfl

/-- C3, what the code does. Once the list of top stories is loaded and can be
cut at 25, `top` returns no error and prints 25 entries for every schedule, also
when the fetch of one of the stories fails. -/
theorem top_drops_item_errors (w : World) (sched : Sched) (stories : GoSlice Int)
    (ht : w.topstories = .ok stories) (hcap : 25 ≤ stories.cap)
    (hfail : ∃ id ∈ stories.arr.take 25, ∃ e, w.fetchItem id = .error e) :
    ∃ t, top w sched = .ret t ∧ t.err = none ∧ t.items.length = 25 ∧
      t.stdout = topPrint 0 t.items := by
  have _ := hfail
  obtain ⟨arr, _, htop⟩ := top_step w sched stories ht hcap
  exact ⟨_, htop, rfl, by simp [setAll_length], rfl⟩

/-- Witness of C3: the story 103 of the listing does not load and `top` still
returns no error. -/
theorem top_drops_item_errors_witness :
    ∃ t, top holedWorld firstReady = .ret t ∧ t.err = none ∧ t.items.length = 25 ∧
      t.stdout = topPrint 0 t.items :=
  top_drops_item_errors holedWorld firstReady
    ⟨(List.range 30).map (fun n => (n : Int) + 100), 30⟩ rfl (by decide)
    ⟨103, by decide, .leaf "timeout", rfl⟩

/-- C5, what the code does. The goroutine that `run` starts for a comment
whose `comments` call fails sends its error and then goes on to send `nil` as
well, while the goroutines of `comments` and of `top` send once. On the story
whose comments 2 and 3 do not load, `run` returns after one receive and both
goroutines stay blocked, the one of comment 2 on its second send. -/
theorem run_task_sends_twice_on_error (w : World) (lk : Int) (c : String) (e : GoError)
    (li : Nat) :
    runTask lk (c, some e)
        = [{ err := some (.wrap ("loading comment " ++ fmtInt lk ++ ": ") e) },
           { err := none, write := some (lk, c) }]
    ∧ (commentsTask li lk (c, some e)).length = 1
    ∧ (topTask w li lk).length = 1
    ∧ run brokenWorld 2 firstReady ["hn", "comments", "1"] = .ret
        { err := some (.wrap "subcomment: " (.wrap "loading comment 2: "
            (.wrap "fetch story: " (.wrap "fetch: " (.leaf "timeout")))))
          stdout := "T (0pts, 0cms)\n\tby a\n--------------------"
          fan := { launched := 2, received := 1, blocked := 2 } } := by
  refine ⟨rfl, rfl, ?_, by decide⟩
  rw [topTask_eq]
  rfl

/-- C6, what the code does. On the story whose comments 2 and 3 do not load,
`comments` starts two goroutines, returns after one receive, and leaves one
goroutine blocked on its send. -/
theorem comments_returns_before_drain :
    commentsCall brokenWorld 2 firstReady 1 = some
      { ret := ("", some (.wrap "load sub comment: " (.wrap "item 2: "
          (.wrap "fetch story: " (.wrap "fetch: " (.leaf "timeout")))))),
        fan := { launched := 2, received := 1, blocked := 1 } } := by
  decide

/-- C8 as it holds. When the request for the item `id` fails with the error
`e`, `comments` returns the empty string and the error
`fetch story: fetch: <e>`: its message is these two fixed prefixes followed by
the message of `e`, and its innermost error is the one of `e`. `comments` puts
no id into it: any other id whose request fails with the same `e` gives the
same error. The id is put in by the goroutine that called `comments`: the result
it sends carries `item <id>: fetch story: fetch: <e>` (in `run`,
`loading comment <id>: fetch story: fetch: <e>`), a message that contains the
id. -/
theorem comments_wraps_fetch_failure (w : World) (fuel : Nat) (sched : Sched) (id : Int)
    (e : GoError) (h : w.fetchItem id = .error e) :
    comments w (fuel + 1) sched id
        = some ("", some (.wrap "fetch story: " (.wrap "fetch: " e)))
    ∧ (GoError.wrap "fetch story: " (.wrap "fetch: " e)).Error
        = "fetch story: " ++ ("fetch: " ++ e.Error)
    ∧ (GoError.wrap "fetch story: " (.wrap "fetch: " e)).cause = e.cause
    ∧ (∀ (id' : Int) (sched' : Sched), w.fetchItem id' = .error e →
        comments w (fuel + 1) sched' id' = comments w (fuel + 1) sched id)
    ∧ (∀ li : Nat, ∀ r, comments w (fuel + 1) sched id = some r →
        ∃ err, commentsTask li id r = [{ err := some err }]
          ∧ err.Error = "item " ++ fmtInt id ++ ": " ++ ("fetch story: " ++ ("fetch: " ++ e.Error))
          ∧ Contains err.Error (fmtInt id) = true)
    ∧ (∀ r, comments w (fuel + 1) sched id = some r →
        ∃ err, (runTask id r).head? = some { err := some err }
          ∧ err.Error
              = "loading comment " ++ fmtInt id ++ ": "
                  ++ ("fetch story: " ++ ("fetch: " ++ e.Error))
          ∧ Contains err.Error (fmtInt id) = true) := by
  have hmain : ∀ (i : Int) (sc : Sched), w.fetchItem i = .error e →
      comments w (fuel + 1) sc i
        = some ("", some (.wrap "fetch story: " (.wrap "fetch: " e))) := by
    intro i sc hi
    simp [comments, commentsCall, loadItem, hi]
  refine ⟨hmain id sched h, rfl, rfl, ?_, ?_, ?_⟩
  · intro id' sched' h'
    rw [hmain id' sched' h', hmain id sched h]
  · intro li r hr
    rw [hmain id sched h] at hr
    obtain rfl := Option.some.inj hr
    refine ⟨_, rfl, rfl, ?_⟩
    show Contains ("item " ++ fmtInt id ++ ": "
      ++ (GoError.wrap "fetch story: " (.wrap "fetch: " e)).Error) (fmtInt id) = true
    rw [String.append_assoc]
    exact Contains_mid "item " (fmtInt id) _
  · intro r hr
    rw [hmain id sched h] at hr
    obtain rfl := Option.some.inj hr
    refine ⟨_, rfl, rfl, ?_⟩
    show Contains ("loading comment " ++ fmtInt id ++ ": "
      ++ (GoError.wrap "fetch story: " (.wrap "fetch: " e)).Error) (fmtInt id) = true
    rw [String.append_assoc]
    exact Contains_mid "loading comment " (fmtInt id) _

/-- Witness of C8 as it holds: the request for the item 9 is answered by an
HTML page, which does not decode. -/
theorem comments_wraps_fetch_failure_witness :
    comments (garbledWorld "invalid character '<' looking for beginning of value") 1
        firstReady 9
      = some ("", some (.wrap "fetch story: " (.wrap "fetch: "
          (.leaf "invalid character '<' looking for beginning of value")))) :=
  (comments_wraps_fetch_failure
    (garbledWorld "invalid character '<' looking for beginning of value") 0 firstReady 9
    (.leaf "invalid character '<' looking for beginning of value") rfl).1

/-- C8 as stated fails: when the request for the item 9 is answered by a body
that is not JSON, the decoding error of `encoding/json` names neither the URL
nor the id, and the message of the error that `comments` returns,
`fetch story: fetch: invalid character '<' looking for beginning of value`, does
not contain the id; nor does it when the library puts its handler tag before
the decoding error. -/
theorem comments_error_omits_id :
    (comments (garbledWorld "invalid character '<' looking for beginning of value") 1
        firstReady 9).map (fun r => (r.1, r.2.map GoError.Error))
      = some ("",
          some "fetch story: fetch: invalid character '<' looking for beginning of value")
    ∧ Contains "fetch story: fetch: invalid character '<' looking for beginning of value"
        (fmtInt 9) = false
    ∧ (comments
        (garbledWorld "ErrHandler: invalid character '<' looking for beginning of value") 1
        firstReady 9).map (fun r => (r.1, r.2.map GoError.Error))
      = some ("", some
          "fetch story: fetch: ErrHandler: invalid character '<' looking for beginning of value")
    ∧ Contains
        "fetch story: fetch: ErrHandler: invalid character '<' looking for beginning of value"
        (fmtInt 9) = false := by
  decide

/-- C9. For every string `s`, splitting `indent s` on the newline gives as many
lines as splitting `s`, each line of `indent s` is a tab followed by the line of
`s` at the same position, `indent s` is a tab followed by `s` with every newline
replaced by a newline and a tab, and `indent ""` is a tab. -/
theorem indent_lines (s : String) :
    (Split (indent s) '\n').length = (Split s '\n').length
    ∧ (∀ (i : Nat) (l : String), (Split s '\n')[i]? = some l → (Split (indent s) '\n')[i]? = some ("\t" ++ l))
    ∧ indent s = "\t" ++ ReplaceAll s "\n" "\n\t"
    ∧ indent "" = "\t" := by
  refine ⟨by rw [Split_indent, List.length_map], ?_, ?_, by decide⟩
  · intro i l h
    rw [Split_indent, List.getElem?_map, h]
    rfl
  · apply String.ext
    rw [indent_data]
    rfl

/-- C10, what the code does. When the decoded list of top stories has a
capacity below 25, the slice expression `stories[:25]` panics and `top` neither
fetches an item nor returns. -/
theorem top_panics_on_short_list (w : World) (sched : Sched) (stories : GoSlice Int)
    (ht : w.topstories = .ok stories) (hcap : stories.cap < 25) :
    top w sched = .panic ("runtime error: slice bounds out of range [:25] with capacity "
      ++ toString stories.cap) := by
  have hn : ¬ 25 ≤ stories.cap := by omega
  simp only [top, ht, GoSlice.sliceTo, if_neg hn]
  rfl

/-- Witness of C10: the remote source answers with the empty list. -/
theorem top_panics_on_short_list_witness :
    top emptyWorld firstReady = .panic "runtime error: slice bounds out of range [:25] with capacity 0" :=
  top_panics_on_short_list emptyWorld firstReady ⟨[], 0⟩ rfl (by decide)

end HN
